import Mathlib

/-!
Shallow embedding of the LCache-go cache core.

Embedded components:
* the LRU store engine `lRUStore` from src/store/lru.go, modelled as a pure
  state-passing machine (the mutex and the background goroutine schedule are
  sequentialized: every operation takes the current time as a parameter);
* the lifecycle façade `Cache` from src/cache.go;
* the `ByteView` value type from src/unnamed/part_000, once as plain contents
  for the façade and once over an explicit buffer heap to state aliasing facts.

Invocations of the `onEvicted` callback are modelled as an event log `events`
appended to whenever the Go code would call the listener.
-/

namespace LCacheGo

/-- The `store.Value` interface (src/store/store.go): anything reporting a
byte length via `Len() int`. -/
class Value (V : Type) where
  len : V → Int

/-- `store.Options` (src/store/store.go): byte budget, cleanup interval and
the optional eviction callback; the callback is modelled by whether it is
non-nil. -/
structure Options where
  maxBytes : Int
  cleanupInterval : Int
  onEvicted : Bool
deriving DecidableEq

/-- State of `lRUStore` (src/store/lru.go). The recency list holds
(key, value) entries, front = most recently used; `expires` is the
key-to-absolute-expiry table; `onEvictedSet` records whether the struct
field `onEvicted` is non-nil; `events` logs every invocation of the
listener. -/
structure LRUStore (V : Type) where
  list : List (String × V)
  expires : List (String × Int)
  maxBytes : Int
  usedBytes : Int
  onEvictedSet : Bool
  events : List (String × V)
deriving DecidableEq

/-- Lookup in an association list by key (first match), modelling a Go map
read or the `items` index into the recency list. -/
def lookupKey {V : Type} (key : String) : List (String × V) → Option V
  | [] => none
  | e :: t => if e.1 = key then some e.2 else lookupKey key t

/-- Remove the first entry with the given key, modelling `list.Remove` of the
indexed element / `delete` on a Go map. -/
def eraseKey {V : Type} (key : String) : List (String × V) → List (String × V)
  | [] => []
  | e :: t => if e.1 = key then t else e :: eraseKey key t

/-- Sum of `Value.Len` over the entries of a recency list. -/
def sumLen {V : Type} [Value V] : List (String × V) → Int
  | [] => 0
  | e :: t => Value.len e.2 + sumLen t

/-- `newLRUStore` (src/store/lru.go). Note: the constructor does not copy
`opt.OnEvicted` into the store, so the listener field keeps its zero value
(nil). -/
def newLRUStore (V : Type) (opt : Options) : LRUStore V :=
  { list := [], expires := [], maxBytes := opt.maxBytes, usedBytes := 0,
    onEvictedSet := false, events := [] }

/-- One iteration of the expiration loop in `evict` (src/store/lru.go,
lines 149-161), for a key whose recorded expiry is strictly before now:
remove the entry from the recency list and index, subtract its size, and
drop the expiration record (or only drop the record if the key is
dangling). -/
def expireStep {V : Type} [Value V] (key : String) (s : LRUStore V) : LRUStore V :=
  match lookupKey key s.list with
  | some v =>
      { s with list := eraseKey key s.list,
               usedBytes := s.usedBytes - Value.len v,
               expires := eraseKey key s.expires }
  | none => { s with expires := eraseKey key s.expires }

/-- The expiration loop of `evict`, iterating over a snapshot of the
expiration table; `time.Time.Before` is a strict comparison, so only
records with expiry strictly before `now` are processed. -/
def expireGo {V : Type} [Value V] (now : Int) : List (String × Int) → LRUStore V → LRUStore V
  | [], s => s
  | (_k, t) :: rest, s =>
      expireGo now rest (if t < now then expireStep _k s else s)

/-- The expiration pass of `evict` (src/store/lru.go). -/
def expirePass {V : Type} [Value V] (now : Int) (s : LRUStore V) : LRUStore V :=
  expireGo now s.expires s

/-- One iteration of the capacity loop of `evict` (src/store/lru.go,
lines 162-177): remove the back (least recently used) entry, subtract its
size, drop its expiration record. -/
def capacityStep {V : Type} [Value V] (s : LRUStore V) : LRUStore V :=
  match s.list.getLast? with
  | none => s
  | some e =>
      { s with list := s.list.dropLast,
               usedBytes := s.usedBytes - Value.len e.2,
               expires := eraseKey e.1 s.expires }

/-- The capacity loop of `evict`: while a positive budget is configured, the
counter exceeds it and the list is non-empty, evict from the back. Each
iteration removes one entry, so fuel equal to the list length covers the
loop. -/
def capacityGo {V : Type} [Value V] : Nat → LRUStore V → LRUStore V
  | 0, s => s
  | n + 1, s =>
      if 0 < s.maxBytes ∧ s.maxBytes < s.usedBytes ∧ 0 < s.list.length then
        capacityGo n (capacityStep s)
      else s

/-- The capacity pass of `evict` (src/store/lru.go). -/
def capacityPass {V : Type} [Value V] (s : LRUStore V) : LRUStore V :=
  capacityGo s.list.length s

/-- `evict` (src/store/lru.go): the expiration pass followed by the capacity
pass. No branch appends to `events`: the Go code contains no call of
`l.onEvicted` here. -/
def evict {V : Type} [Value V] (now : Int) (s : LRUStore V) : LRUStore V :=
  capacityPass (expirePass now s)

/-- `Get` (src/store/lru.go): return the value and move the entry to the
front of the recency list. -/
def lruGet {V : Type} [Value V] (s : LRUStore V) (key : String) :
    Option V × LRUStore V :=
  match lookupKey key s.list with
  | none => (none, s)
  | some v => (some v, { s with list := (key, v) :: eraseKey key s.list })

/-- `Delete` (src/store/lru.go): remove the entry if present, adjust the
counter, drop any expiration record, report whether something was removed. -/
def lruDelete {V : Type} [Value V] (s : LRUStore V) (key : String) :
    Bool × LRUStore V :=
  match lookupKey key s.list with
  | some v =>
      (true,
       { s with list := eraseKey key s.list,
                usedBytes := s.usedBytes - Value.len v,
                expires := eraseKey key s.expires })
  | none => (false, s)

/-- The mutation part of `SetWithExpiration` (src/store/lru.go, lines 74-94)
before the synchronous `evict`: update in place and move to front, or insert
at the front; record an absolute expiry only when the TTL is positive. -/
def setRaw {V : Type} [Value V] (s : LRUStore V) (key : String) (v : V)
    (expiration now : Int) : LRUStore V :=
  match lookupKey key s.list with
  | some old =>
      { s with usedBytes := s.usedBytes - Value.len old + Value.len v,
               list := (key, v) :: eraseKey key s.list,
               expires :=
                 if 0 < expiration then (key, now + expiration) :: eraseKey key s.expires
                 else s.expires }
  | none =>
      { s with list := (key, v) :: s.list,
               usedBytes := s.usedBytes + Value.len v,
               expires :=
                 if 0 < expiration then (key, now + expiration) :: eraseKey key s.expires
                 else s.expires }

/-- `SetWithExpiration` (src/store/lru.go): a nil value is a delete (and
skips the eviction pass); otherwise insert/update and run `evict`
synchronously. -/
def lruSetWithExpiration {V : Type} [Value V] (s : LRUStore V) (key : String)
    (value : Option V) (expiration now : Int) : LRUStore V :=
  match value with
  | none => (lruDelete s key).2
  | some v => evict now (setRaw s key v expiration now)

/-- `Set` (src/store/lru.go): delegates to `SetWithExpiration` with a zero
TTL. -/
def lruSet {V : Type} [Value V] (s : LRUStore V) (key : String)
    (value : Option V) (now : Int) : LRUStore V :=
  lruSetWithExpiration s key value 0 now

/-- `Clear` (src/store/lru.go): fire the listener once per live entry when
it is configured, then reset list, index, expiration table and counter. -/
def lruClear {V : Type} [Value V] (s : LRUStore V) : LRUStore V :=
  { s with list := [], expires := [], usedBytes := 0,
           events := s.events ++ (if s.onEvictedSet then s.list else []) }

/-- `Len` (src/store/lru.go): the length of the recency list. -/
def lruLen {V : Type} [Value V] (s : LRUStore V) : Nat :=
  s.list.length

/-- The mutating store operations; `sweep` is one tick of the background
cleanup goroutine `CleanupStore`, which runs `evict` under the lock. -/
inductive Op (V : Type) where
  | get (key : String)
  | set (key : String) (value : Option V) (now : Int)
  | setWithExpiration (key : String) (value : Option V) (expiration now : Int)
  | del (key : String)
  | clear
  | sweep (now : Int)

/-- Apply one store operation to the state. -/
def runOp {V : Type} [Value V] (s : LRUStore V) : Op V → LRUStore V
  | .get k => (lruGet s k).2
  | .set k v now => lruSet s k v now
  | .setWithExpiration k v e now => lruSetWithExpiration s k v e now
  | .del k => (lruDelete s k).2
  | .clear => lruClear s
  | .sweep now => evict now s

/-- Apply a sequence of store operations. -/
def runOps {V : Type} [Value V] (s : LRUStore V) : List (Op V) → LRUStore V
  | [] => s
  | op :: rest => runOps (runOp s op) rest

/-- The accounting invariant: the used-bytes counter equals the sum of value
sizes over the recency list. -/
def wf {V : Type} [Value V] (s : LRUStore V) : Prop :=
  s.usedBytes = sumLen s.list

/-- `ByteView` (src/unnamed/part_000): an immutable view of a byte buffer,
here carried by contents; `Len` reports the buffer length. -/
structure ByteView where
  b : List Nat
deriving DecidableEq

/-- `ByteView.Len`: the number of bytes held. -/
def ByteView.bLen (v : ByteView) : Int :=
  v.b.length

instance : Value ByteView :=
  ⟨ByteView.bLen⟩

/-- `CacheOptions` (src/cache.go). The cache type tag is omitted: the façade
is modelled over the LRU engine (the alternate lru2 engine is out of the
specified core). -/
structure CacheOptions where
  maxBytes : Int
  cleanupTime : Int
  onEvicted : Bool
deriving DecidableEq

/-- State of the façade `Cache` (src/cache.go). The store is `none` until
lazy initialization and again after `Close`. Since the façade only ever
inserts `ByteView` values, the store is modelled at type
`LRUStore ByteView`, making the type assertion in `Get` always succeed. -/
structure Cache where
  opts : CacheOptions
  store : Option (LRUStore ByteView)
  hits : Int
  misses : Int
  initialized : Bool
  closed : Bool
deriving DecidableEq

/-- `NewCache` (src/cache.go). -/
def newCache (opts : CacheOptions) : Cache :=
  { opts := opts, store := none, hits := 0, misses := 0,
    initialized := false, closed := false }

/-- `ensureCacheInitialized` (src/cache.go): construct the store at most
once. Note: the store options are built from MaxBytes and CleanupTime only;
`c.opts.OnEvicted` is not passed through. -/
def ensureCacheInitialized (c : Cache) : Cache :=
  if c.initialized then c
  else
    { c with
      store := some (newLRUStore ByteView
        { maxBytes := c.opts.maxBytes, cleanupInterval := c.opts.cleanupTime,
          onEvicted := false }),
      initialized := true }

/-- `OpenedAndInitialized` (src/cache.go): fail when closed, otherwise
ensure initialization. -/
def openedAndInitialized (c : Cache) : Bool × Cache :=
  if c.closed then (false, c) else (true, ensureCacheInitialized c)

/-- The zero value `ByteView\x7b\x7d` returned on the failure paths of
`Cache.Get`. -/
def emptyByteView : ByteView :=
  ⟨[]⟩

/-- `Cache.Get` (src/cache.go): closed or missing keys count a miss and
return the empty view; hits count and return the stored view. -/
def cacheGet (c : Cache) (key : String) : (ByteView × Bool) × Cache :=
  match openedAndInitialized c with
  | (false, c1) => ((emptyByteView, false), { c1 with misses := c1.misses + 1 })
  | (true, c1) =>
      match c1.store with
      | none => ((emptyByteView, false), { c1 with misses := c1.misses + 1 })
      | some st =>
          match lruGet st key with
          | (none, st1) =>
              ((emptyByteView, false),
               { c1 with store := some st1, misses := c1.misses + 1 })
          | (some v, st1) =>
              ((v, true), { c1 with store := some st1, hits := c1.hits + 1 })

/-- `Cache.Add` (src/cache.go): no-op when closed, otherwise `store.Set`. -/
def cacheAdd (c : Cache) (key : String) (value : ByteView) (now : Int) : Cache :=
  match openedAndInitialized c with
  | (false, c1) => c1
  | (true, c1) =>
      match c1.store with
      | none => c1
      | some st => { c1 with store := some (lruSet st key (some value) now) }

/-- `Cache.AddWithExpiration` (src/cache.go): convert the absolute time to a
TTL via `time.Until`; reject a non-positive TTL as a no-op. -/
def cacheAddWithExpiration (c : Cache) (key : String) (value : ByteView)
    (expirationTime now : Int) : Cache :=
  match openedAndInitialized c with
  | (false, c1) => c1
  | (true, c1) =>
      if expirationTime - now ≤ 0 then c1
      else
        match c1.store with
        | none => c1
        | some st =>
            { c1 with
              store := some (lruSetWithExpiration st key (some value)
                (expirationTime - now) now) }

/-- `Cache.Delete` (src/cache.go): false when closed or uninitialized,
otherwise delegate. -/
def cacheDelete (c : Cache) (key : String) : Bool × Cache :=
  if c.closed ∨ ¬c.initialized then (false, c)
  else
    match c.store with
    | none => (false, c)
    | some st => ((lruDelete st key).1, { c with store := some (lruDelete st key).2 })

/-- `Cache.Clear` (src/cache.go): no-op when closed or uninitialized,
otherwise clear the store and reset the hit and miss counters. -/
def cacheClear (c : Cache) : Cache :=
  if c.closed ∨ ¬c.initialized then c
  else
    match c.store with
    | none => c
    | some st => { c with store := some (lruClear st), hits := 0, misses := 0 }

/-- `Cache.Len` (src/cache.go): 0 when closed or uninitialized. -/
def cacheLen (c : Cache) : Nat :=
  if c.closed ∨ ¬c.initialized then 0
  else
    match c.store with
    | none => 0
    | some st => lruLen st

/-- `Cache.Close` (src/cache.go): flip the closed flag exactly once, release
the store and reset the initialized flag; a second call is a no-op. -/
def cacheClose (c : Cache) : Cache :=
  if c.closed then c
  else { c with closed := true, store := none, initialized := false }

/-- The snapshot returned by `Cache.Stats` (src/cache.go); the hit rate is
modelled over the rationals. -/
structure Stats where
  initialized : Bool
  closed : Bool
  hits : Int
  misses : Int
  size : Nat
  hitRate : ℚ
deriving DecidableEq

/-- `Cache.Stats` (src/cache.go): the division is only evaluated when at
least one request was observed; otherwise the hit rate is 0. -/
def cacheStats (c : Cache) : Stats :=
  { initialized := c.initialized, closed := c.closed,
    hits := c.hits, misses := c.misses, size := cacheLen c,
    hitRate :=
      if 0 < c.hits + c.misses then (c.hits : ℚ) / ((c.hits : ℚ) + (c.misses : ℚ))
      else 0 }

/-- The façade operations. `Len` and `Stats` mutate nothing and are read off
the state directly, so they do not appear here. -/
inductive FOp where
  | get (key : String)
  | add (key : String) (value : ByteView) (now : Int)
  | addWithExpiration (key : String) (value : ByteView) (expirationTime now : Int)
  | del (key : String)
  | clear
  | close

/-- Apply one façade operation to the state. -/
def runFOp (c : Cache) : FOp → Cache
  | .get k => (cacheGet c k).2
  | .add k v now => cacheAdd c k v now
  | .addWithExpiration k v e now => cacheAddWithExpiration c k v e now
  | .del k => (cacheDelete c k).2
  | .clear => cacheClear c
  | .close => cacheClose c

/-- Apply a sequence of façade operations. -/
def runFOps (c : Cache) : List FOp → Cache
  | [] => c
  | op :: rest => runFOps (runFOp c op) rest

namespace Aliasing

/-- Mutable byte buffers addressed by allocation index, modelling Go slice
backing arrays so that aliasing between slices is expressible. -/
structure Heap where
  bufs : List (List Nat)
deriving DecidableEq

/-- Read the contents of a buffer. -/
def Heap.read (h : Heap) (r : Nat) : List Nat :=
  h.bufs.getD r []

/-- Allocate a fresh buffer with the given contents and return its address. -/
def Heap.alloc (h : Heap) (contents : List Nat) : Heap × Nat :=
  ({ bufs := h.bufs ++ [contents] }, h.bufs.length)

/-- Overwrite the buffer at an address, modelling mutation of a Go slice. -/
def Heap.write (h : Heap) (r : Nat) (contents : List Nat) : Heap :=
  { bufs := h.bufs.set r contents }

/-- `cloneBytes` (src/unnamed/part_000): `make` a fresh slice of the same
length and `copy` the contents into it. -/
def cloneBytes (h : Heap) (r : Nat) : Heap × Nat :=
  h.alloc (h.read r)

/-- `ByteView` over the buffer heap: the struct holds a reference to its
internal buffer `b`. -/
structure ByteViewRef where
  ref : Nat
deriving DecidableEq

/-- Modelled from the spec: the ByteView constructor is code of this
repository not under src/ (only the read methods and `cloneBytes` are);
the spec says construction defensively copies the input bytes, which is
`cloneBytes` applied to the caller's slice. -/
def newByteView (h : Heap) (src : Nat) : Heap × ByteViewRef :=
  ((cloneBytes h src).1, ⟨(cloneBytes h src).2⟩)

/-- `ByteView.ByteSlice` (src/unnamed/part_000): returns `cloneBytes(b.b)`,
a fresh copy of the internal buffer. -/
def byteSlice (h : Heap) (v : ByteViewRef) : Heap × Nat :=
  cloneBytes h v.ref

/-- `ByteView.String` (src/unnamed/part_000): `string(b.b)` copies the bytes
into an immutable Go string, modelled as the contents by value. -/
def toStr (h : Heap) (v : ByteViewRef) : List Nat :=
  h.read v.ref

end Aliasing

section Lemmas

variable {V : Type}

theorem lookupKey_eq_none_iff (k : String) (l : List (String × V)) :
    lookupKey k l = none ↔ ∀ e ∈ l, e.1 ≠ k := by
  induction l with
  | nil => simp [lookupKey]
  | cons e t ih =>
      by_cases h : e.1 = k
      · simp [lookupKey, h]
      · simp [lookupKey, h, ih]

theorem eraseKey_sublist (k : String) (l : List (String × V)) :
    (eraseKey k l).Sublist l := by
  induction l with
  | nil => simp [eraseKey]
  | cons e t ih =>
      by_cases h : e.1 = k
      · simpa [eraseKey, h] using (List.sublist_cons_self e t)
      · simpa [eraseKey, h] using ih.cons₂ e

theorem lookupKey_eraseKey_none (k k' : String) (l : List (String × V))
    (h : lookupKey k l = none) : lookupKey k (eraseKey k' l) = none := by
  rw [lookupKey_eq_none_iff] at h ⊢
  exact fun e he => h e ((eraseKey_sublist k' l).mem he)

theorem lookupKey_eraseKey_ne (k k' : String) (l : List (String × V))
    (h : k' ≠ k) : lookupKey k (eraseKey k' l) = lookupKey k l := by
  induction l with
  | nil => simp [eraseKey]
  | cons e t ih =>
      by_cases he : e.1 = k'
      · have : e.1 ≠ k := by rw [he]; exact h
        simp [eraseKey, he, lookupKey, this, h]
      · by_cases hk : e.1 = k
        · simp [eraseKey, he, lookupKey, hk, Ne.symm h]
        · simp [eraseKey, he, lookupKey, hk, ih]

theorem lookupKey_eraseKey_self (k : String) (l : List (String × V))
    (h : (l.map Prod.fst).Nodup) : lookupKey k (eraseKey k l) = none := by
  induction l with
  | nil => simp [eraseKey, lookupKey]
  | cons e t ih =>
      by_cases he : e.1 = k
      · simp only [eraseKey, if_pos he]
        rw [lookupKey_eq_none_iff]
        intro x hx hxk
        have hmem : e.1 ∈ t.map Prod.fst := by
          rw [he, ← hxk]; exact List.mem_map_of_mem Prod.fst hx
        exact (List.nodup_cons.mp (by simpa using h)).1 hmem
      · simp only [eraseKey, if_neg he, lookupKey, if_neg he]
        exact ih (List.nodup_cons.mp (by simpa using h)).2

theorem nodup_fst_eraseKey (k : String) (l : List (String × V))
    (h : (l.map Prod.fst).Nodup) : ((eraseKey k l).map Prod.fst).Nodup :=
  ((eraseKey_sublist k l).map Prod.fst).nodup h

theorem sumLen_eraseKey [Value V] (k : String) (l : List (String × V)) (v : V)
    (h : lookupKey k l = some v) :
    sumLen (eraseKey k l) = sumLen l - Value.len v := by
  induction l with
  | nil => simp [lookupKey] at h
  | cons e t ih =>
      by_cases he : e.1 = k
      · simp only [lookupKey, if_pos he] at h
        obtain rfl : e.2 = v := by injection h
        simp only [eraseKey, if_pos he, sumLen]
        omega
      · simp only [lookupKey, if_neg he] at h
        simp only [eraseKey, if_neg he, sumLen, ih h]
        omega

theorem sumLen_dropLast [Value V] (l : List (String × V)) (e : String × V)
    (h : l.getLast? = some e) :
    sumLen l.dropLast = sumLen l - Value.len e.2 := by
  induction l with
  | nil => simp at h
  | cons a t ih =>
      cases t with
      | nil =>
          simp only [List.getLast?_singleton, Option.some_inj] at h
          subst h
          simp [sumLen]
      | cons b t2 =>
          have hgl : (b :: t2).getLast? = some e := by
            simpa [List.getLast?_cons_cons] using h
          have := ih hgl
          simp only [List.dropLast_cons₂, sumLen, this]
          omega

theorem sumLen_le_of_sublist [Value V] {l1 l2 : List (String × V)} (h : l1.Sublist l2)
    (hnn : ∀ e ∈ l2, 0 ≤ Value.len e.2) : sumLen l1 ≤ sumLen l2 := by
  induction h with
  | slnil => simp [sumLen]
  | cons a _h ih =>
      have ha : 0 ≤ Value.len a.2 := hnn a (List.mem_cons_self a _)
      have := ih (fun e he => hnn e (List.mem_cons_of_mem a he))
      simp only [sumLen]
      omega
  | cons₂ a _h ih =>
      have := ih (fun e he => hnn e (List.mem_cons_of_mem a he))
      simp only [sumLen]
      omega

end Lemmas

section Preservation

variable {V : Type} [Value V]

theorem wf_expireStep (k : String) (s : LRUStore V) (h : wf s) :
    wf (expireStep k s) := by
  unfold wf at h
  unfold wf expireStep
  cases hl : lookupKey k s.list with
  | none => simpa using h
  | some v => simp [sumLen_eraseKey k s.list v hl, h]

theorem wf_expireGo (now : Int) (it : List (String × Int)) (s : LRUStore V)
    (h : wf s) : wf (expireGo now it s) := by
  induction it generalizing s with
  | nil => simpa [expireGo] using h
  | cons e rest ih =>
      obtain ⟨k, t⟩ := e
      simp only [expireGo]
      by_cases ht : t < now
      · exact ih _ (by simpa [ht] using wf_expireStep k s h)
      · simpa [ht] using ih s h

theorem wf_capacityStep (s : LRUStore V) (h : wf s) : wf (capacityStep s) := by
  unfold wf at h
  unfold wf capacityStep
  cases hl : s.list.getLast? with
  | none => simpa using h
  | some e => simp [sumLen_dropLast s.list e hl, h]

theorem wf_capacityGo (n : Nat) (s : LRUStore V) (h : wf s) :
    wf (capacityGo n s) := by
  induction n generalizing s with
  | zero => simpa [capacityGo] using h
  | succ n ih =>
      simp only [capacityGo]
      by_cases hc : 0 < s.maxBytes ∧ s.maxBytes < s.usedBytes ∧ 0 < s.list.length
      · simpa [hc] using ih _ (wf_capacityStep s h)
      · simpa [hc] using h

theorem wf_evict (now : Int) (s : LRUStore V) (h : wf s) : wf (evict now s) :=
  wf_capacityGo _ _ (wf_expireGo now s.expires s h)

theorem wf_lruGet (s : LRUStore V) (k : String) (h : wf s) :
    wf (lruGet s k).2 := by
  unfold wf at h
  unfold wf lruGet
  cases hl : lookupKey k s.list with
  | none => simpa using h
  | some v => simp [sumLen, sumLen_eraseKey k s.list v hl, h]

theorem wf_lruDelete (s : LRUStore V) (k : String) (h : wf s) :
    wf (lruDelete s k).2 := by
  unfold wf at h
  unfold wf lruDelete
  cases hl : lookupKey k s.list with
  | none => simpa using h
  | some v => simp [sumLen_eraseKey k s.list v hl, h]

theorem wf_setRaw (s : LRUStore V) (k : String) (v : V) (e now : Int)
    (h : wf s) : wf (setRaw s k v e now) := by
  unfold wf at h
  unfold wf setRaw
  cases hl : lookupKey k s.list with
  | none => simp [sumLen, h]; omega
  | some old => simp [sumLen, sumLen_eraseKey k s.list old hl, h]; omega

theorem wf_lruSetWithExpiration (s : LRUStore V) (k : String) (v : Option V)
    (e now : Int) (h : wf s) : wf (lruSetWithExpiration s k v e now) := by
  cases v with
  | none => exact wf_lruDelete s k h
  | some v => exact wf_evict now _ (wf_setRaw s k v e now h)

theorem wf_lruClear (s : LRUStore V) (_h : wf s) : wf (lruClear s) := by
  simp [wf, lruClear, sumLen]

theorem wf_runOp (s : LRUStore V) (op : Op V) (h : wf s) : wf (runOp s op) := by
  cases op with
  | get k => exact wf_lruGet s k h
  | set k v now => exact wf_lruSetWithExpiration s k v 0 now h
  | setWithExpiration k v e now => exact wf_lruSetWithExpiration s k v e now h
  | del k => exact wf_lruDelete s k h
  | clear => exact wf_lruClear s h
  | sweep now => exact wf_evict now s h

theorem wf_runOps (s : LRUStore V) (ops : List (Op V)) (h : wf s) :
    wf (runOps s ops) := by
  induction ops generalizing s with
  | nil => simpa [runOps] using h
  | cons op rest ih => exact ih _ (wf_runOp s op h)

end Preservation

section ExpireStructure

variable {V : Type} [Value V]

theorem lookupKey_eq_none_of_sublist {W : Type} (k : String)
    {l1 l2 : List (String × W)} (hs : l1.Sublist l2)
    (h : lookupKey k l2 = none) : lookupKey k l1 = none := by
  rw [lookupKey_eq_none_iff] at h ⊢
  exact fun e he => h e (hs.mem he)

theorem expireStep_list_sublist (k : String) (s : LRUStore V) :
    ((expireStep k s).list).Sublist s.list := by
  unfold expireStep
  cases lookupKey k s.list with
  | none => simp
  | some v => simpa using eraseKey_sublist k s.list

theorem expireStep_expires_sublist (k : String) (s : LRUStore V) :
    ((expireStep k s).expires).Sublist s.expires := by
  unfold expireStep
  cases lookupKey k s.list with
  | none => simpa using eraseKey_sublist k s.expires
  | some v => simpa using eraseKey_sublist k s.expires

theorem expireStep_maxBytes (k : String) (s : LRUStore V) :
    (expireStep k s).maxBytes = s.maxBytes := by
  unfold expireStep
  cases lookupKey k s.list <;> simp

theorem expireGo_list_sublist (now : Int) (it : List (String × Int))
    (s : LRUStore V) : ((expireGo now it s).list).Sublist s.list := by
  induction it generalizing s with
  | nil => simp [expireGo]
  | cons e rest ih =>
      obtain ⟨k0, t0⟩ := e
      simp only [expireGo]
      by_cases ht : t0 < now
      · simpa [ht] using (ih (expireStep k0 s)).trans (expireStep_list_sublist k0 s)
      · simpa [ht] using ih s

theorem expireGo_expires_sublist (now : Int) (it : List (String × Int))
    (s : LRUStore V) : ((expireGo now it s).expires).Sublist s.expires := by
  induction it generalizing s with
  | nil => simp [expireGo]
  | cons e rest ih =>
      obtain ⟨k0, t0⟩ := e
      simp only [expireGo]
      by_cases ht : t0 < now
      · simpa [ht] using (ih (expireStep k0 s)).trans (expireStep_expires_sublist k0 s)
      · simpa [ht] using ih s

theorem expireGo_maxBytes (now : Int) (it : List (String × Int))
    (s : LRUStore V) : (expireGo now it s).maxBytes = s.maxBytes := by
  induction it generalizing s with
  | nil => simp [expireGo]
  | cons e rest ih =>
      obtain ⟨k0, t0⟩ := e
      simp only [expireGo]
      by_cases ht : t0 < now
      · simpa [ht] using (ih (expireStep k0 s)).trans (expireStep_maxBytes k0 s)
      · simpa [ht] using ih s

theorem expireGo_absent (now : Int) (it : List (String × Int)) (s : LRUStore V)
    (k : String) (h1 : lookupKey k s.list = none)
    (h2 : lookupKey k s.expires = none) :
    lookupKey k (expireGo now it s).list = none ∧
      lookupKey k (expireGo now it s).expires = none :=
  ⟨lookupKey_eq_none_of_sublist k (expireGo_list_sublist now it s) h1,
   lookupKey_eq_none_of_sublist k (expireGo_expires_sublist now it s) h2⟩

theorem expireGo_removes (now : Int) (it : List (String × Int)) (s : LRUStore V)
    (k : String) (t : Int) (hmem : (k, t) ∈ it) (ht : t < now)
    (hit : (it.map Prod.fst).Nodup)
    (hl : (s.list.map Prod.fst).Nodup)
    (he : (s.expires.map Prod.fst).Nodup) :
    lookupKey k (expireGo now it s).list = none ∧
      lookupKey k (expireGo now it s).expires = none := by
  induction it generalizing s with
  | nil => simp at hmem
  | cons e rest ih =>
      obtain ⟨k0, t0⟩ := e
      rcases List.mem_cons.mp hmem with heq | hrest
      · have hk : k0 = k := (congrArg Prod.fst heq).symm
        have htt : t0 < now := by
          have h2 : t = t0 := congrArg Prod.snd heq
          rw [← h2]
          exact ht
        simp only [expireGo, if_pos htt]
        rw [hk]
        apply expireGo_absent
        · unfold expireStep
          cases hlk : lookupKey k s.list with
          | none => simpa using hlk
          | some v => simpa using lookupKey_eraseKey_self k s.list hl
        · unfold expireStep
          cases hlk : lookupKey k s.list with
          | none => simpa using lookupKey_eraseKey_self k s.expires he
          | some v => simpa using lookupKey_eraseKey_self k s.expires he
      · have hit' : (rest.map Prod.fst).Nodup := by
          have h0 : (k0 :: rest.map Prod.fst).Nodup := by simpa using hit
          exact h0.of_cons
        simp only [expireGo]
        by_cases ht0 : t0 < now
        · simp only [if_pos ht0]
          exact ih (expireStep k0 s) hrest hit'
            (((expireStep_list_sublist k0 s).map Prod.fst).nodup hl)
            (((expireStep_expires_sublist k0 s).map Prod.fst).nodup he)
        · simp only [if_neg ht0]
          exact ih s hrest hit' hl he

theorem expireGo_lookup_some (now : Int) (it : List (String × Int))
    (s : LRUStore V) (k : String) (v : V)
    (h : lookupKey k s.list = some v)
    (hfr : ∀ t, (k, t) ∈ it → now ≤ t) :
    lookupKey k (expireGo now it s).list = some v := by
  induction it generalizing s with
  | nil => simpa [expireGo] using h
  | cons e rest ih =>
      obtain ⟨k0, t0⟩ := e
      simp only [expireGo]
      by_cases ht : t0 < now
      · have hk0 : k0 ≠ k := by
          intro hk
          subst hk
          exact absurd ht (not_lt.mpr (hfr t0 (List.mem_cons_self _ _)))
        simp only [if_pos ht]
        refine ih (expireStep k0 s) ?_ (fun t hmt => hfr t (List.mem_cons_of_mem _ hmt))
        unfold expireStep
        cases lookupKey k0 s.list with
        | none => simpa using h
        | some w => simpa using (lookupKey_eraseKey_ne k k0 s.list hk0).trans h
      · simp only [if_neg ht]
        exact ih s h (fun t hmt => hfr t (List.mem_cons_of_mem _ hmt))

theorem capacityGo_eq_self (n : Nat) (s : LRUStore V)
    (h : ¬(0 < s.maxBytes ∧ s.maxBytes < s.usedBytes ∧ 0 < s.list.length)) :
    capacityGo n s = s := by
  cases n <;> simp [capacityGo, h]

end ExpireStructure

/-- C2: for every store built by `newLRUStore` and after any sequence of
Get, Set, SetWithExpiration, Delete, Clear and eviction-pass operations,
the used-bytes counter equals the sum of the value sizes (Value.Len) of all
entries currently in the recency structure. -/
theorem usedBytes_invariant {V : Type} [Value V] (opt : Options)
    (ops : List (Op V)) : wf (runOps (newLRUStore V opt) ops) :=
  wf_runOps _ ops (by unfold wf newLRUStore sumLen; rfl)

/-- C7: `Set(k, v)` produces exactly the same result and the same store
state as `SetWithExpiration(k, v, 0)`: in the source `Set` literally
delegates with a zero TTL. -/
theorem set_eq_setWithExpiration_zero {V : Type} [Value V] (s : LRUStore V)
    (key : String) (value : Option V) (now : Int) :
    lruSet s key value now = lruSetWithExpiration s key value 0 now := rfl

/-- C4: with a byte budget of 20 and no TTLs, inserting "a" with 10 bytes,
then "b" with 10 bytes, then "c" with 5 bytes leaves exactly "b" and "c"
live with used bytes 15; "a" was evicted from the back as least recently
used. -/
theorem lru_concrete_scenario :
    (let opt : Options := { maxBytes := 20, cleanupInterval := 60, onEvicted := false }
     let s := lruSet (lruSet (lruSet (newLRUStore ByteView opt)
       "a" (some ⟨List.replicate 10 0⟩) 0) "b" (some ⟨List.replicate 10 0⟩) 0)
       "c" (some ⟨List.replicate 5 0⟩) 0
     s.list = [("c", ⟨List.replicate 5 0⟩), ("b", ⟨List.replicate 10 0⟩)] ∧
       s.usedBytes = 15) := by
  decide

/-- C1 (code evidence): a store built from options with a configured
eviction listener evicts the single entry "a" by the capacity pass
(the list becomes empty), yet the notification log stays empty and the
listener field was never installed: `newLRUStore` drops `opt.OnEvicted` and
`evict` contains no listener call. -/
theorem evict_fires_no_notification :
    (let opt : Options := { maxBytes := 1, cleanupInterval := 60, onEvicted := true }
     let s := lruSet (newLRUStore ByteView opt) "a" (some ⟨[0, 0]⟩) 0
     s.list = [] ∧ s.events = [] ∧ s.onEvictedSet = false) := by
  decide

/-- C9: inserting a value larger than a positive byte budget into an empty
store leaves the store empty again: the capacity pass evicts the entry just
inserted, the counter returns to 0, and a following Get misses. -/
theorem oversized_insert_leaves_store_empty {V : Type} [Value V]
    (opt : Options) (k : String) (v : V) (now : Int)
    (hpos : 0 < opt.maxBytes) (hbig : opt.maxBytes < Value.len v) :
    (let s := lruSet (newLRUStore V opt) k (some v) now
     s.list = [] ∧ s.usedBytes = 0 ∧ (lruGet s k).1 = none) := by
  simp only [lruSet, lruSetWithExpiration, setRaw, newLRUStore, lookupKey,
    evict, expirePass, expireGo, capacityPass, capacityGo, capacityStep,
    eraseKey, lruGet, List.length_cons, List.length_nil, List.getLast?,
    List.dropLast]
  simp [hpos, hbig, lookupKey]

/-- Witness for C9 at budget 1 and a 2-byte value. -/
theorem oversized_insert_leaves_store_empty_witness :
    (let s := lruSet (newLRUStore ByteView
       { maxBytes := 1, cleanupInterval := 60, onEvicted := false })
       "a" (some ⟨[0, 0]⟩) 0
     s.list = [] ∧ s.usedBytes = 0 ∧ (lruGet s "a").1 = none) :=
  oversized_insert_leaves_store_empty
    { maxBytes := 1, cleanupInterval := 60, onEvicted := false }
    "a" (⟨[0, 0]⟩ : ByteView) 0 (by decide) (by decide)

/-- C3 (amended): in the expiration pass, every key whose recorded expiry
is strictly before the current time is removed from the recency structure
and key index, its expiration record is dropped, and the used-bytes counter
still accounts exactly for the remaining entries; an expiry equal to the
current instant is outside this guarantee. -/
theorem expirePass_removes_expired {V : Type} [Value V] (now : Int)
    (s : LRUStore V) (k : String) (t : Int)
    (hmem : (k, t) ∈ s.expires) (ht : t < now)
    (hl : (s.list.map Prod.fst).Nodup) (he : (s.expires.map Prod.fst).Nodup)
    (hwf : wf s) :
    lookupKey k (expirePass now s).list = none ∧
      lookupKey k (expirePass now s).expires = none ∧
      wf (expirePass now s) :=
  ⟨(expireGo_removes now s.expires s k t hmem ht he hl he).1,
   (expireGo_removes now s.expires s k t hmem ht he hl he).2,
   wf_expireGo now s.expires s hwf⟩

/-- Witness for the amended C3 on a one-entry store whose record expired one
instant ago. -/
theorem expirePass_removes_expired_witness :
    (let s : LRUStore ByteView :=
       { list := [("a", ⟨[0]⟩)], expires := [("a", 5)], maxBytes := 100,
         usedBytes := 1, onEvictedSet := false, events := [] }
     lookupKey "a" (expirePass 6 s).list = none ∧
       lookupKey "a" (expirePass 6 s).expires = none ∧
       wf (expirePass 6 s)) :=
  expirePass_removes_expired 6 _ "a" 5 (by decide) (by decide) (by decide)
    (by decide) (by unfold wf sumLen; decide)

/-- C3 (counterexample): an entry whose recorded expiry equals the current
instant survives the eviction pass untouched, so removal "at or before" the
current time does not hold. -/
theorem expiry_at_now_not_removed :
    (let s : LRUStore ByteView :=
       { list := [("a", ⟨[0]⟩)], expires := [("a", 5)], maxBytes := 100,
         usedBytes := 1, onEvictedSet := false, events := [] }
     lookupKey "a" (evict 5 s).list = some ⟨[0]⟩ ∧
       lookupKey "a" (evict 5 s).expires = some 5) := by
  decide

/-- C5 (amended): for a store satisfying the accounting invariant, whose
entry sizes are nonnegative, `Set(k, v)` followed immediately by `Get(k)`
returns `v`, provided the value size keeps the used-bytes total within the
configured budget (or no budget is set) and provided no expiration record
for k lies in the past at the time of the Set. -/
theorem set_get_roundtrip {V : Type} [Value V] (s : LRUStore V) (k : String)
    (v : V) (now : Int) (hwf : wf s)
    (hnn : ∀ e ∈ s.list, 0 ≤ Value.len e.2) (hv : 0 ≤ Value.len v)
    (hfresh : ∀ t, (k, t) ∈ s.expires → now ≤ t)
    (hbudget : s.maxBytes ≤ 0 ∨ (setRaw s k v 0 now).usedBytes ≤ s.maxBytes) :
    (lruGet (lruSet s k (some v) now) k).1 = some v := by
  have hexp : (setRaw s k v 0 now).expires = s.expires := by
    unfold setRaw
    cases lookupKey k s.list <;> simp
  have hmax : (setRaw s k v 0 now).maxBytes = s.maxBytes := by
    unfold setRaw
    cases lookupKey k s.list <;> simp
  have hlk : lookupKey k (setRaw s k v 0 now).list = some v := by
    unfold setRaw
    cases lookupKey k s.list <;> simp [lookupKey]
  have hsub : ((setRaw s k v 0 now).list).Sublist ((k, v) :: s.list) := by
    unfold setRaw
    cases lookupKey k s.list with
    | none => simp
    | some old => simpa using ((eraseKey_sublist k s.list).cons₂ (k, v))
  have hnn1 : ∀ e ∈ (setRaw s k v 0 now).list, 0 ≤ Value.len e.2 := by
    intro e he
    rcases List.mem_cons.mp (hsub.mem he) with rfl | hmem
    · simpa using hv
    · exact hnn e hmem
  have hwf1 : wf (setRaw s k v 0 now) := wf_setRaw s k v 0 now hwf
  have hpass : expirePass now (setRaw s k v 0 now) =
      expireGo now s.expires (setRaw s k v 0 now) := by
    unfold expirePass
    rw [hexp]
  have hlk2 : lookupKey k (expirePass now (setRaw s k v 0 now)).list = some v := by
    rw [hpass]
    exact expireGo_lookup_some now s.expires _ k v hlk hfresh
  have hwf2 : wf (expirePass now (setRaw s k v 0 now)) :=
    wf_expireGo now _ _ hwf1
  have hused2 : (expirePass now (setRaw s k v 0 now)).usedBytes ≤
      (setRaw s k v 0 now).usedBytes := by
    have h2 := hwf2
    have h1 := hwf1
    unfold wf at h1 h2
    rw [h2, h1]
    refine sumLen_le_of_sublist ?_ hnn1
    rw [hpass]
    exact expireGo_list_sublist now s.expires _
  have hmax2 : (expirePass now (setRaw s k v 0 now)).maxBytes = s.maxBytes := by
    rw [hpass, expireGo_maxBytes, hmax]
  have hcap : capacityPass (expirePass now (setRaw s k v 0 now)) =
      expirePass now (setRaw s k v 0 now) := by
    apply capacityGo_eq_self
    intro hcond
    obtain ⟨h0, hlt, _⟩ := hcond
    rw [hmax2] at h0 hlt
    rcases hbudget with hb | hb
    · omega
    · omega
  have : lruSet s k (some v) now = expirePass now (setRaw s k v 0 now) := by
    unfold lruSet lruSetWithExpiration evict
    exact hcap
  rw [this]
  unfold lruGet
  rw [hlk2]

/-- Witness for the amended C5: a fresh store, one Set, one Get. -/
theorem set_get_roundtrip_witness :
    (lruGet (lruSet (newLRUStore ByteView
       { maxBytes := 100, cleanupInterval := 60, onEvicted := false })
       "a" (some ⟨[0]⟩) 0) "a").1 = some ⟨[0]⟩ :=
  set_get_roundtrip _ "a" (⟨[0]⟩ : ByteView) 0
    (by unfold wf newLRUStore sumLen; rfl)
    (by intro e he; simp [newLRUStore] at he)
    (by decide)
    (by intro t hmt; simp [newLRUStore] at hmt)
    (Or.inr (by decide))

/-- C5 (counterexample): a key stored earlier with a now-elapsed TTL, then
Set with a small value well within budget, is removed by the synchronous
eviction pass (the stale expiration record is left in place by the zero-TTL
update), so the immediate Get misses. -/
theorem stale_ttl_breaks_roundtrip :
    (let s : LRUStore ByteView :=
       { list := [("a", ⟨[0]⟩)], expires := [("a", 5)], maxBytes := 100,
         usedBytes := 1, onEvictedSet := false, events := [] }
     (setRaw s "a" ⟨[0, 0]⟩ 0 10).usedBytes ≤ s.maxBytes ∧
       (lruGet (lruSet s "a" (some ⟨[0, 0]⟩) 10) "a").1 = none) := by
  decide

section Facade

/-- A façade state that is definitively closed: flag set, store released,
initialization reset. -/
def fullyClosed (c : Cache) : Prop :=
  c.closed = true ∧ c.store = none ∧ c.initialized = false

/-- The lifecycle invariant: whenever the closed flag is set, the store has
been released and the initialized flag reset. -/
def closedInv (c : Cache) : Prop :=
  c.closed = true → (c.store = none ∧ c.initialized = false)

theorem fullyClosed_runFOp (c : Cache) (op : FOp) (h : fullyClosed c) :
    fullyClosed (runFOp c op) := by
  obtain ⟨h1, h2, h3⟩ := h
  cases op with
  | get k =>
      simp [runFOp, cacheGet, openedAndInitialized, h1, fullyClosed, h2, h3]
  | add k v now =>
      simp [runFOp, cacheAdd, openedAndInitialized, h1, fullyClosed, h2, h3]
  | addWithExpiration k v e now =>
      simp [runFOp, cacheAddWithExpiration, openedAndInitialized, h1,
        fullyClosed, h2, h3]
  | del k =>
      simp [runFOp, cacheDelete, h1, fullyClosed, h2, h3]
  | clear =>
      simp [runFOp, cacheClear, h1, fullyClosed, h2, h3]
  | close =>
      simp [runFOp, cacheClose, h1, fullyClosed, h2, h3]

theorem fullyClosed_runFOps (c : Cache) (ops : List FOp) (h : fullyClosed c) :
    fullyClosed (runFOps c ops) := by
  induction ops generalizing c with
  | nil => simpa [runFOps] using h
  | cons op rest ih => exact ih _ (fullyClosed_runFOp c op h)

theorem ensureCacheInitialized_closed (c : Cache) :
    (ensureCacheInitialized c).closed = c.closed := by
  unfold ensureCacheInitialized
  split <;> rfl

theorem openedAndInitialized_closed (c : Cache) :
    ((openedAndInitialized c).2).closed = c.closed := by
  unfold openedAndInitialized
  split
  · rfl
  · exact ensureCacheInitialized_closed c

theorem cacheGet_closed (c : Cache) (k : String) :
    ((cacheGet c k).2).closed = c.closed := by
  have ho := openedAndInitialized_closed c
  unfold cacheGet
  rcases hoc : openedAndInitialized c with ⟨b, c1⟩
  rw [hoc] at ho
  cases b
  · simpa using ho
  · rcases hst : c1.store with _ | st
    · simpa [hst] using ho
    · rcases hg : lruGet st k with ⟨ov, st1⟩
      rcases ov with _ | v <;> simpa [hst, hg] using ho

theorem cacheAdd_closed (c : Cache) (k : String) (v : ByteView) (now : Int) :
    (cacheAdd c k v now).closed = c.closed := by
  have ho := openedAndInitialized_closed c
  unfold cacheAdd
  rcases hoc : openedAndInitialized c with ⟨b, c1⟩
  rw [hoc] at ho
  cases b
  · simpa using ho
  · rcases hst : c1.store with _ | st <;> simpa [hst] using ho

theorem cacheAddWithExpiration_closed (c : Cache) (k : String) (v : ByteView)
    (e now : Int) :
    (cacheAddWithExpiration c k v e now).closed = c.closed := by
  have ho := openedAndInitialized_closed c
  unfold cacheAddWithExpiration
  rcases hoc : openedAndInitialized c with ⟨b, c1⟩
  rw [hoc] at ho
  cases b
  · simpa using ho
  · by_cases he : e - now ≤ 0
    · simpa [he] using ho
    · rcases hst : c1.store with _ | st <;> simpa [he, hst] using ho

theorem cacheDelete_closed (c : Cache) (k : String) :
    ((cacheDelete c k).2).closed = c.closed := by
  unfold cacheDelete
  split
  · rfl
  · split <;> rfl

theorem cacheClear_closed (c : Cache) :
    (cacheClear c).closed = c.closed := by
  unfold cacheClear
  split
  · rfl
  · split <;> rfl

theorem closedInv_runFOp (c : Cache) (op : FOp) (h : closedInv c) :
    closedInv (runFOp c op) := by
  by_cases hc : c.closed = true
  · have hfc : fullyClosed c := ⟨hc, h hc⟩
    have h2 := fullyClosed_runFOp c op hfc
    exact fun _ => ⟨h2.2.1, h2.2.2⟩
  · have hc' : c.closed = false := by simpa using hc
    cases op with
    | get k =>
        intro hcl
        have h2 := (cacheGet_closed c k).symm.trans hcl
        simp [hc'] at h2
    | add k v now =>
        intro hcl
        have h2 := (cacheAdd_closed c k v now).symm.trans hcl
        simp [hc'] at h2
    | addWithExpiration k v e now =>
        intro hcl
        have h2 := (cacheAddWithExpiration_closed c k v e now).symm.trans hcl
        simp [hc'] at h2
    | del k =>
        intro hcl
        have h2 := (cacheDelete_closed c k).symm.trans hcl
        simp [hc'] at h2
    | clear =>
        intro hcl
        have h2 := (cacheClear_closed c).symm.trans hcl
        simp [hc'] at h2
    | close =>
        intro _
        simp [runFOp, cacheClose, hc']

theorem closedInv_runFOps (c : Cache) (ops : List FOp) (h : closedInv c) :
    closedInv (runFOps c ops) := by
  induction ops generalizing c with
  | nil => simpa [runFOps] using h
  | cons op rest ih => exact ih _ (closedInv_runFOp c op h)

theorem fullyClosed_cacheClose (c : Cache) (h : closedInv c) :
    fullyClosed (cacheClose c) := by
  unfold cacheClose
  by_cases hc : c.closed = true
  · rw [if_pos hc]
    exact ⟨hc, (h hc).1, (h hc).2⟩
  · have hc' : c.closed = false := by simpa using hc
    simp [hc', fullyClosed]

end Facade

/-- C6: once the façade has been closed, after any further sequence of
façade operations Get returns the empty view and false (without touching
store or initialized flag), Add and AddWithExpiration leave the state
unchanged, Delete returns false, Len returns 0, and the store stays
released with the initialized flag down: nothing reinitializes it. -/
theorem closed_cache_ops_fail (opts : CacheOptions) (pre post : List FOp)
    (k : String) (v : ByteView) (e now : Int) :
    (let d := runFOps (cacheClose (runFOps (newCache opts) pre)) post
     d.closed = true ∧ d.store = none ∧ d.initialized = false ∧
       (cacheGet d k).1 = (emptyByteView, false) ∧
       (cacheGet d k).2.store = none ∧
       (cacheGet d k).2.initialized = false ∧
       cacheAdd d k v now = d ∧
       cacheAddWithExpiration d k v e now = d ∧
       cacheDelete d k = (false, d) ∧
       cacheLen d = 0) := by
  have hinv : closedInv (newCache opts) := by
    simp [closedInv, newCache]
  have hfc : fullyClosed (runFOps (cacheClose (runFOps (newCache opts) pre)) post) :=
    fullyClosed_runFOps _ post
      (fullyClosed_cacheClose _ (closedInv_runFOps _ pre hinv))
  obtain ⟨h1, h2, h3⟩ := hfc
  refine ⟨h1, h2, h3, ?_, ?_, ?_, ?_, ?_, ?_, ?_⟩
  · simp [cacheGet, openedAndInitialized, h1]
  · simp [cacheGet, openedAndInitialized, h1, h2]
  · simp [cacheGet, openedAndInitialized, h1, h3]
  · simp [cacheAdd, openedAndInitialized, h1]
  · simp [cacheAddWithExpiration, openedAndInitialized, h1]
  · simp [cacheDelete, h1]
  · simp [cacheLen, h1]

/-- C10: Clear on an open, initialized façade resets the hit and miss
counters, and an immediate Stats snapshot reports zero hits, zero misses
and a zero hit rate. -/
theorem clear_resets_stats (c : Cache) (st : LRUStore ByteView)
    (hopen : c.closed = false) (hinit : c.initialized = true)
    (hstore : c.store = some st) :
    (let c1 := cacheClear c
     c1.hits = 0 ∧ c1.misses = 0 ∧ (cacheStats c1).hits = 0 ∧
       (cacheStats c1).misses = 0 ∧ (cacheStats c1).hitRate = 0) := by
  have hclear : cacheClear c =
      { c with store := some (lruClear st), hits := 0, misses := 0 } := by
    unfold cacheClear
    rw [if_neg (by simp [hopen, hinit]), hstore]
  simp [hclear, cacheStats]

/-- Witness for C10 on a concrete open façade with nonzero counters. -/
theorem clear_resets_stats_witness :
    (let c : Cache :=
       { opts := { maxBytes := 100, cleanupTime := 60, onEvicted := false },
         store := some (newLRUStore ByteView
           { maxBytes := 100, cleanupInterval := 60, onEvicted := false }),
         hits := 3, misses := 2, initialized := true, closed := false }
     let c1 := cacheClear c
     c1.hits = 0 ∧ c1.misses = 0 ∧ (cacheStats c1).hits = 0 ∧
       (cacheStats c1).misses = 0 ∧ (cacheStats c1).hitRate = 0) :=
  clear_resets_stats _ _ rfl rfl rfl

section AliasingLemmas

theorem getD_append_lt {α : Type} (l1 l2 : List α) (d : α) (i : Nat)
    (h : i < l1.length) : (l1 ++ l2).getD i d = l1.getD i d := by
  induction l1 generalizing i with
  | nil => simp at h
  | cons a t ih =>
      cases i with
      | zero => simp
      | succ n =>
          simp only [List.cons_append, List.getD_cons_succ]
          exact ih n (by simpa using h)

theorem getD_append_self {α : Type} (l : List α) (x d : α) :
    (l ++ [x]).getD l.length d = x := by
  induction l with
  | nil => simp
  | cons a t ih => simpa using ih

theorem getD_set_ne {α : Type} (l : List α) (i j : Nat) (x d : α)
    (h : i ≠ j) : (l.set i x).getD j d = l.getD j d := by
  induction l generalizing i j with
  | nil => simp
  | cons a t ih =>
      cases i with
      | zero =>
          cases j with
          | zero => exact absurd rfl h
          | succ m => simp
      | succ n =>
          cases j with
          | zero => simp
          | succ m =>
              simp only [List.set_cons_succ, List.getD_cons_succ]
              exact ih n m (fun he => h (by rw [he]))

end AliasingLemmas

/-- C8: ByteView construction copies the input bytes into a fresh buffer
distinct from the caller's slice, mutating the caller's slice never changes
the cached bytes, ByteSlice returns a fresh buffer with equal contents whose
mutation never changes the cached bytes, and String returns the contents by
value. -/
theorem byteView_defensive_copy (h : Aliasing.Heap) (src : Nat)
    (hsrc : src < h.bufs.length) :
    (let h1 := (Aliasing.newByteView h src).1
     let v := (Aliasing.newByteView h src).2
     h1.read v.ref = h.read src ∧
       v.ref ≠ src ∧
       (∀ bs, (h1.write src bs).read v.ref = h1.read v.ref) ∧
       (Aliasing.byteSlice h1 v).2 ≠ v.ref ∧
       (Aliasing.byteSlice h1 v).1.read (Aliasing.byteSlice h1 v).2 =
         h1.read v.ref ∧
       (∀ bs, (((Aliasing.byteSlice h1 v).1.write (Aliasing.byteSlice h1 v).2
         bs)).read v.ref = h1.read v.ref) ∧
       Aliasing.toStr h1 v = h.read src) := by
  simp only [Aliasing.newByteView, Aliasing.byteSlice, Aliasing.cloneBytes,
    Aliasing.Heap.alloc, Aliasing.Heap.read, Aliasing.Heap.write,
    Aliasing.toStr]
  have hlen : (h.bufs ++ [h.bufs.getD src []]).length = h.bufs.length + 1 := by
    simp
  refine ⟨?_, ?_, ?_, ?_, ?_, ?_, ?_⟩
  · exact getD_append_self h.bufs _ []
  · exact Nat.ne_of_gt hsrc
  · intro bs
    exact getD_set_ne (h.bufs ++ [h.bufs.getD src []]) src h.bufs.length bs []
      (Nat.ne_of_lt hsrc)
  · rw [hlen]
    exact Nat.succ_ne_self h.bufs.length
  · exact getD_append_self _ _ []
  · intro bs
    rw [hlen]
    rw [getD_set_ne _ (h.bufs.length + 1) h.bufs.length bs []
      (Nat.succ_ne_self h.bufs.length)]
    exact getD_append_lt _ _ [] h.bufs.length (by simp)
  · exact getD_append_self h.bufs _ []

/-- Witness for C8 on a one-buffer heap. -/
theorem byteView_defensive_copy_witness :
    (let h0 : Aliasing.Heap := { bufs := [[1, 2, 3]] }
     let h1 := (Aliasing.newByteView h0 0).1
     let v := (Aliasing.newByteView h0 0).2
     h1.read v.ref = h0.read 0 ∧
       v.ref ≠ 0 ∧
       (∀ bs, (h1.write 0 bs).read v.ref = h1.read v.ref) ∧
       (Aliasing.byteSlice h1 v).2 ≠ v.ref ∧
       (Aliasing.byteSlice h1 v).1.read (Aliasing.byteSlice h1 v).2 =
         h1.read v.ref ∧
       (∀ bs, (((Aliasing.byteSlice h1 v).1.write (Aliasing.byteSlice h1 v).2
         bs)).read v.ref = h1.read v.ref) ∧
       Aliasing.toStr h1 v = h0.read 0) :=
  byteView_defensive_copy { bufs := [[1, 2, 3]] } 0 (by decide)

end LCacheGo
